import Mathlib

/-!
Verification development for the finance-analyzer terminal application:
the transaction model, the rule-based categorization engine
(`src/models/category.rs`), the sort/filter/selection view state machine
(`src/ui/app.rs`), and the CSV importer (`src/utils/csv.rs`).

Modelling conventions (shallow embedding):
* Rust `String` text is modelled as `List Char`; `str::to_lowercase` as a
  character-wise `Char.toLower` map; `str::contains` as substring search.
* `rust_decimal::Decimal` is modelled exactly as a mantissa/scale pair
  (the value is mantissa / 10 ^ scale); addition, negation and comparison
  are exact, as in the library.  96-bit mantissa overflow is not modelled.
* `chrono::NaiveDateTime` values produced by the importer are dates at
  midnight; they are modelled as the natural number y*10000 + m*100 + d,
  whose numeric order coincides with chronological order.
* `HashMap` iteration order is unspecified in Rust; maps are modelled as
  association lists, so iteration order is the (deterministic) list order.
* `Vec::sort_by` is a stable sort; it is modelled by a stable insertion
  sort (`sortBy`), extensionally equal to any stable sort for a total
  preorder comparator.
* `ratatui::ListState` is modelled by its selected index (`Option Nat`).
-/

namespace FinanceAnalyzer

/-- Text modelled as a list of characters. -/
abbrev Text := List Char

/-- Model of Rust `str::to_lowercase` (character-wise lowering). -/
def toLowercase (s : Text) : Text := s.map Char.toLower

/-- Model of Rust `str::contains` (substring containment): `containsSub h n`
is true iff `n` occurs contiguously inside `h`.  The empty needle is always
contained. -/
def containsSub : Text → Text → Bool
  | [], n => n.isEmpty
  | c :: t, n => n.isPrefixOf (c :: t) || containsSub t n

/-- Model of Rust `str::trim_matches('"')`: strips all leading and trailing
double-quote characters. -/
def trim_quotes (s : Text) : Text :=
  ((s.dropWhile (· = '"')).reverse.dropWhile (· = '"')).reverse

/-- Rust `Ord::cmp` on a linear order (`compareOfLessAndEq` shape). -/
def cmpd {α : Type} [LinearOrder α] (x y : α) : Ordering :=
  if x < y then .lt else if x = y then .eq else .gt

theorem cmpd_ne_gt_iff {α : Type} [LinearOrder α] (x y : α) :
    cmpd x y ≠ .gt ↔ x ≤ y := by
  unfold cmpd
  split_ifs with h1 h2
  · simp [le_of_lt h1]
  · simp [le_of_eq h2]
  · simp only [ne_eq, not_true_eq_false, false_iff, not_le]
    exact lt_of_le_of_ne (not_lt.mp h1) (Ne.symm h2)

theorem cmpd_symm {α : Type} [LinearOrder α] (x y : α) :
    cmpd x y = (cmpd y x).swap := by
  unfold cmpd
  rcases lt_trichotomy x y with h | h | h
  · simp [h, asymm h, (ne_of_lt h).symm]
    rfl
  · simp [h, lt_irrefl]
    rfl
  · simp [h, asymm h, ne_of_gt h]
    rfl

/-- Exact decimal number, as in `rust_decimal`: the value is
`mantissa / 10 ^ scale`.  Arithmetic is exact (no rounding). -/
structure Decimal where
  mantissa : Int
  scale : Nat
deriving DecidableEq, Inhabited

namespace Decimal

/-- Constant `Decimal::ZERO`. -/
def ZERO : Decimal := ⟨0, 0⟩

/-- The integer value of a decimal rescaled to scale `S` (exact whenever
`scale ≤ S`). -/
def toVal (d : Decimal) (S : Nat) : Int := d.mantissa * 10 ^ (S - d.scale)

/-- Exact decimal addition: rescale both operands to the larger scale and add
mantissas, as `rust_decimal` does. -/
def add (a b : Decimal) : Decimal :=
  ⟨a.toVal (max a.scale b.scale) + b.toVal (max a.scale b.scale), max a.scale b.scale⟩

/-- Decimal negation. -/
def neg (a : Decimal) : Decimal := ⟨-a.mantissa, a.scale⟩

/-- Decimal comparison (numeric, exact): compare the mantissas rescaled to the
larger scale.  This is `rust_decimal`'s `Ord`. -/
def cmp (a b : Decimal) : Ordering :=
  cmpd (a.toVal (max a.scale b.scale)) (b.toVal (max a.scale b.scale))

theorem toVal_scale_self (a : Decimal) : a.toVal a.scale = a.mantissa := by
  simp [toVal]

theorem toVal_mono_scale (a : Decimal) {S S' : Nat} (h₁ : a.scale ≤ S) (h₂ : S ≤ S') :
    a.toVal S' = a.toVal S * 10 ^ (S' - S) := by
  simp only [toVal, mul_assoc, ← pow_add]
  congr 2
  omega

theorem toVal_add (a b : Decimal) {S : Nat} (ha : a.scale ≤ S) (hb : b.scale ≤ S) :
    (a.add b).toVal S = a.toVal S + b.toVal S := by
  have h1 : a.scale ≤ max a.scale b.scale := le_max_left _ _
  have h2 : b.scale ≤ max a.scale b.scale := le_max_right _ _
  have hm : max a.scale b.scale ≤ S := max_le ha hb
  have hl : (a.add b).toVal S =
      (a.toVal (max a.scale b.scale) + b.toVal (max a.scale b.scale)) *
        10 ^ (S - max a.scale b.scale) := rfl
  rw [hl, toVal_mono_scale a h1 hm, toVal_mono_scale b h2 hm]
  ring

theorem scale_add (a b : Decimal) : (a.add b).scale = max a.scale b.scale := rfl

theorem eq_of_scale_toVal {x y : Decimal} (hs : x.scale = y.scale)
    (hv : x.toVal x.scale = y.toVal y.scale) : x = y := by
  cases x
  cases y
  simp only [toVal, Nat.sub_self, pow_zero, mul_one] at hv
  simp_all

theorem add_comm (a b : Decimal) : a.add b = b.add a := by
  apply eq_of_scale_toVal
  · simp [scale_add, Nat.max_comm]
  · rw [toVal_add a b (by simp [scale_add]) (by simp [scale_add]),
      toVal_add b a (by simp [scale_add, Nat.max_comm a.scale b.scale])
        (by simp [scale_add, Nat.max_comm a.scale b.scale]),
      scale_add, scale_add, Nat.max_comm b.scale a.scale]
    ring

theorem add_assoc (a b c : Decimal) : (a.add b).add c = a.add (b.add c) := by
  have hs : ((a.add b).add c).scale = (a.add (b.add c)).scale := by
    simp [scale_add, Nat.max_assoc]
  apply eq_of_scale_toVal hs
  have haL : a.scale ≤ ((a.add b).add c).scale := by simp only [scale_add]; omega
  have hbL : b.scale ≤ ((a.add b).add c).scale := by simp only [scale_add]; omega
  have hcL : c.scale ≤ ((a.add b).add c).scale := by simp only [scale_add]; omega
  have habL : (a.add b).scale ≤ ((a.add b).add c).scale := by simp only [scale_add]; omega
  have hbcR : (b.add c).scale ≤ ((a.add b).add c).scale := by simp only [scale_add]; omega
  rw [toVal_add _ _ habL hcL, toVal_add _ _ haL hbL, ← hs,
    toVal_add _ _ haL hbcR, toVal_add _ _ hbL hcL]
  ring

theorem zero_add (a : Decimal) : ZERO.add a = a := by
  cases a with
  | mk m s =>
    simp [ZERO, add, toVal, Nat.max_eq_right (Nat.zero_le s)]

theorem add_zero (a : Decimal) : a.add ZERO = a := by
  rw [add_comm]
  exact zero_add a

instance : Zero Decimal := ⟨ZERO⟩

instance : Add Decimal := ⟨add⟩

instance : AddCommMonoid Decimal where
  add_assoc := add_assoc
  zero_add := zero_add
  add_zero := add_zero
  add_comm := add_comm
  nsmul := nsmulRec
  nsmul_zero := fun _ => rfl
  nsmul_succ := fun _ _ => rfl

theorem add_def (a b : Decimal) : a + b = a.add b := rfl

theorem zero_def : (0 : Decimal) = ZERO := rfl

theorem cmp_ne_gt_iff (a b : Decimal) {S : Nat} (ha : a.scale ≤ S) (hb : b.scale ≤ S) :
    a.cmp b ≠ .gt ↔ a.toVal S ≤ b.toVal S := by
  have hm : max a.scale b.scale ≤ S := max_le ha hb
  rw [cmp, cmpd_ne_gt_iff,
    toVal_mono_scale a (le_max_left _ _) hm, toVal_mono_scale b (le_max_right _ _) hm]
  constructor
  · intro h
    exact mul_le_mul_of_nonneg_right h (by positivity)
  · intro h
    exact le_of_mul_le_mul_right h (by positivity)

theorem cmp_symm (a b : Decimal) : a.cmp b = (b.cmp a).swap := by
  rw [cmp, cmp, Nat.max_comm b.scale a.scale]
  exact cmpd_symm _ _

end Decimal

/-! Stable sorting

`Vec::sort_by` is a stable sort.  It is embedded as a stable insertion sort
over the preorder `le a b ↔ comparator a b ≠ Greater`; any two stable sorts
agree for a total preorder comparator. -/

/-- Insert `a` into `l` in front of the first element `b` with `le a b`
(stable position for a sorted `l`). -/
def orderedInsertBy {α : Type} (le : α → α → Prop) [DecidableRel le] (a : α) :
    List α → List α
  | [] => [a]
  | b :: l => if le a b then a :: b :: l else b :: orderedInsertBy le a l

/-- Stable insertion sort: the embedding of Rust's stable `sort_by`. -/
def sortBy {α : Type} (le : α → α → Prop) [DecidableRel le] : List α → List α
  | [] => []
  | a :: l => orderedInsertBy le a (sortBy le l)

theorem perm_orderedInsertBy {α : Type} (le : α → α → Prop) [DecidableRel le] (a : α)
    (l : List α) : (orderedInsertBy le a l).Perm (a :: l) := by
  induction l with
  | nil => exact List.Perm.refl _
  | cons b l ih =>
    rw [orderedInsertBy]
    split
    · exact List.Perm.refl _
    · exact (ih.cons b).trans (List.Perm.swap a b l)

theorem perm_sortBy {α : Type} (le : α → α → Prop) [DecidableRel le] (l : List α) :
    (sortBy le l).Perm l := by
  induction l with
  | nil => exact List.Perm.refl _
  | cons a l ih =>
    exact (perm_orderedInsertBy le a (sortBy le l)).trans (ih.cons a)

theorem sublist_orderedInsertBy {α : Type} (le : α → α → Prop) [DecidableRel le] (a : α)
    (l : List α) : l.Sublist (orderedInsertBy le a l) := by
  induction l with
  | nil => exact List.nil_sublist _
  | cons b l ih =>
    rw [orderedInsertBy]
    split
    · exact List.sublist_cons_self a (b :: l)
    · exact ih.cons₂ b

theorem pairwise_orderedInsertBy {α : Type} (le : α → α → Prop) [DecidableRel le]
    (htot : ∀ x y, le x y ∨ le y x) (htrans : Transitive le) {a : α} {l : List α}
    (h : l.Pairwise le) : (orderedInsertBy le a l).Pairwise le := by
  induction l with
  | nil => simp [orderedInsertBy]
  | cons b l ih =>
    rw [List.pairwise_cons] at h
    obtain ⟨hb, hl⟩ := h
    rw [orderedInsertBy]
    split
    · rename_i hab
      rw [List.pairwise_cons]
      refine ⟨?_, List.pairwise_cons.mpr ⟨hb, hl⟩⟩
      intro x hx
      rcases List.mem_cons.mp hx with rfl | hx
      · exact hab
      · exact htrans hab (hb x hx)
    · rename_i hab
      rw [List.pairwise_cons]
      refine ⟨?_, ih hl⟩
      intro x hx
      rcases (perm_orderedInsertBy le a l).mem_iff.mp hx with hx'
      rcases List.mem_cons.mp hx' with rfl | hx''
      · exact (htot x b).resolve_left hab
      · exact hb x hx''

theorem pairwise_sortBy {α : Type} (le : α → α → Prop) [DecidableRel le]
    (htot : ∀ x y, le x y ∨ le y x) (htrans : Transitive le) (l : List α) :
    (sortBy le l).Pairwise le := by
  induction l with
  | nil => simp [sortBy]
  | cons a l ih => exact pairwise_orderedInsertBy le htot htrans ih

theorem cons_sublist_orderedInsertBy {α : Type} (le : α → α → Prop) [DecidableRel le]
    {a : α} {c s : List α} (hc : c.Sublist s) (ha : ∀ x ∈ c, le a x) :
    (a :: c).Sublist (orderedInsertBy le a s) := by
  induction s generalizing c with
  | nil =>
    rw [List.sublist_nil.mp hc]
    exact List.Sublist.refl _
  | cons b s' ih =>
    rw [orderedInsertBy]
    split
    · exact hc.cons₂ a
    · rename_i hab
      cases hc with
      | cons _ h' => exact (ih h' ha).cons b
      | cons₂ _ h' =>
        exact absurd (ha b (List.mem_cons_self b _)) hab

theorem sublist_sortBy_of_pairwise {α : Type} (le : α → α → Prop) [DecidableRel le]
    {c l : List α} (hc : c.Pairwise le) (h : c.Sublist l) : c.Sublist (sortBy le l) := by
  induction l generalizing c with
  | nil =>
    rw [List.sublist_nil.mp h]
    exact List.nil_sublist _
  | cons a l ih =>
    rw [sortBy]
    cases h with
    | cons _ h' => exact (ih hc h').trans (sublist_orderedInsertBy le a (sortBy le l))
    | cons₂ _ h' =>
      rw [List.pairwise_cons] at hc
      exact cons_sublist_orderedInsertBy le (ih hc.2 h') hc.1

/-- Two elements are tied with the pivot `p` under the preorder `le`. -/
def tieWith {α : Type} (le : α → α → Prop) [DecidableRel le] (p x : α) : Bool :=
  decide (le x p ∧ le p x)

theorem tieWith_eq_true {α : Type} {le : α → α → Prop} [DecidableRel le] {p x : α} :
    tieWith le p x = true ↔ le x p ∧ le p x := by
  simp [tieWith]

/-- Stability: sorting by any relation `le'` that holds on all `le`-ties keeps
each tie class (the sublist of elements tied with a fixed pivot) unchanged. -/
theorem filter_tie_sortBy {α : Type} (le le' : α → α → Prop)
    [DecidableRel le] [DecidableRel le'] (htrans : Transitive le)
    (hle' : ∀ x y, le x y → le y x → le' x y) (p : α) (l : List α) :
    (sortBy le' l).filter (tieWith le p) = l.filter (tieWith le p) := by
  have hself : (l.filter (tieWith le p)).filter (tieWith le p) = l.filter (tieWith le p) :=
    List.filter_eq_self.mpr fun x hx => (List.mem_filter.mp hx).2
  have hpw : (l.filter (tieWith le p)).Pairwise le' := by
    apply List.pairwise_of_forall_mem_list
    intro x hx y hy
    have hx2 := tieWith_eq_true.mp (List.mem_filter.mp hx).2
    have hy2 := tieWith_eq_true.mp (List.mem_filter.mp hy).2
    exact hle' x y (htrans hx2.1 hy2.2) (htrans hy2.1 hx2.2)
  have h1 : (l.filter (tieWith le p)).Sublist (sortBy le' l) :=
    sublist_sortBy_of_pairwise le' hpw (List.filter_sublist l)
  have h2 : (l.filter (tieWith le p)).Sublist ((sortBy le' l).filter (tieWith le p)) := by
    have := h1.filter (tieWith le p)
    rwa [hself] at this
  have h3 : ((sortBy le' l).filter (tieWith le p)).Perm (l.filter (tieWith le p)) :=
    (perm_sortBy le' l).filter _
  exact (h2.eq_of_length h3.length_eq.symm).symm

/-- A list sorted by a total preorder is determined by its tie classes:
two sorted lists with identical tie class sublists are equal. -/
theorem eq_of_pairwise_of_filter_tie_eq {α : Type} (le : α → α → Prop) [DecidableRel le]
    (htot : ∀ x y, le x y ∨ le y x) :
    ∀ (x y : List α), x.Pairwise le → y.Pairwise le →
      (∀ p, x.filter (tieWith le p) = y.filter (tieWith le p)) → x = y := by
  have hrefl : ∀ z, le z z := fun z => (htot z z).elim id id
  have hselftie : ∀ z, tieWith le z z = true := fun z =>
    tieWith_eq_true.mpr ⟨hrefl z, hrefl z⟩
  intro x
  induction x with
  | nil =>
    intro y _ _ hf
    cases y with
    | nil => rfl
    | cons b y' =>
      exfalso
      have h := hf b
      rw [List.filter_nil, List.filter_cons, hselftie b] at h
      simp at h
  | cons a x' ih =>
    intro y hx hy hf
    cases y with
    | nil =>
      exfalso
      have h := hf a
      rw [List.filter_nil, List.filter_cons, hselftie a] at h
      simp at h
    | cons b y' =>
      rw [List.pairwise_cons] at hx hy
      have hab : a = b := by
        by_cases htie : le b a ∧ le a b
        · have h := hf a
          rw [List.filter_cons, List.filter_cons, if_pos (hselftie a),
            if_pos (tieWith_eq_true.mpr htie)] at h
          injection h with h1 _
        · exfalso
          have hna : ¬ (tieWith le a b = true) := fun hw => htie (tieWith_eq_true.mp hw)
          have hnb : ¬ (tieWith le b a = true) := fun hw => by
            have hw' := tieWith_eq_true.mp hw
            exact htie ⟨hw'.2, hw'.1⟩
          have hfa := hf a
          rw [List.filter_cons, List.filter_cons, if_pos (hselftie a), if_neg hna] at hfa
          have hfb := hf b
          rw [List.filter_cons, List.filter_cons, if_neg hnb, if_pos (hselftie b)] at hfb
          -- a is in y' (from hfa), b is in x' (from hfb)
          have hay : a ∈ y' := by
            have : a ∈ y'.filter (tieWith le a) := by
              rw [← hfa]
              exact List.mem_cons_self a _
            exact (List.mem_filter.mp this).1
          have hbx : b ∈ x' := by
            have : b ∈ x'.filter (tieWith le b) := by
              rw [hfb]
              exact List.mem_cons_self b _
            exact (List.mem_filter.mp this).1
          exact htie ⟨hy.1 a hay, hx.1 b hbx⟩
      subst hab
      have htail : x' = y' := by
        apply ih y' hx.2 hy.2
        intro p
        have h := hf p
        rw [List.filter_cons, List.filter_cons] at h
        by_cases hpa : tieWith le p a = true
        · rw [if_pos hpa, if_pos hpa] at h
          injection h with _ h2
        · rw [if_neg hpa, if_neg hpa] at h
          exact h
      rw [htail]

/-- Sorting by the flipped relation and then by the relation itself restores a
sorted list: the composition of the two stable sorts is the identity on lists
already sorted by `le`. -/
theorem sortBy_flip_sortBy {α : Type} (le le' : α → α → Prop)
    [DecidableRel le] [DecidableRel le']
    (htot : ∀ x y, le x y ∨ le y x) (htrans : Transitive le)
    (hflip : ∀ a b, le' a b ↔ le b a) {l : List α} (hl : l.Pairwise le) :
    sortBy le (sortBy le' l) = l := by
  apply eq_of_pairwise_of_filter_tie_eq le htot
  · exact pairwise_sortBy le htot htrans _
  · exact hl
  · intro p
    rw [filter_tie_sortBy le le htrans (fun x y hxy _ => hxy) p]
    exact filter_tie_sortBy le le' htrans (fun x y _ hyx => (hflip x y).mpr hyx) p l

/-! Lawful comparators

Rust's `Ord`-style comparators.  `LawfulCmp` packages antisymmetry under
`swap` and transitivity of the induced `≤` (`cmp a b ≠ Greater`), which is all
that stable sorting needs. -/

/-- The preorder induced by an `Ordering`-valued comparator. -/
def leOfCmp {α : Type} (cmp : α → α → Ordering) : α → α → Prop :=
  fun a b => cmp a b ≠ .gt

instance {α : Type} (cmp : α → α → Ordering) : DecidableRel (leOfCmp cmp) :=
  fun a b => inferInstanceAs (Decidable (cmp a b ≠ .gt))

/-- A comparator that is antisymmetric under `swap` and whose induced `≤` is
transitive (all comparators of the program are of this kind). -/
structure LawfulCmp {α : Type} (cmp : α → α → Ordering) : Prop where
  symm : ∀ a b, cmp a b = (cmp b a).swap
  le_trans : ∀ a b c, cmp a b ≠ .gt → cmp b c ≠ .gt → cmp a c ≠ .gt

theorem LawfulCmp.ne_lt_iff {α : Type} {cmp : α → α → Ordering} (h : LawfulCmp cmp)
    (a b : α) : cmp a b ≠ .lt ↔ cmp b a ≠ .gt := by
  rw [h.symm a b]
  cases cmp b a <;> simp [Ordering.swap]

theorem LawfulCmp.total {α : Type} {cmp : α → α → Ordering} (h : LawfulCmp cmp)
    (a b : α) : leOfCmp cmp a b ∨ leOfCmp cmp b a := by
  by_cases hab : cmp a b = .gt
  · right
    rw [leOfCmp, h.symm b a, hab]
    simp [Ordering.swap]
  · exact Or.inl hab

theorem LawfulCmp.transitive {α : Type} {cmp : α → α → Ordering} (h : LawfulCmp cmp) :
    Transitive (leOfCmp cmp) :=
  fun a b c h1 h2 => h.le_trans a b c h1 h2

theorem LawfulCmp.swap {α : Type} {cmp : α → α → Ordering} (h : LawfulCmp cmp) :
    LawfulCmp (fun a b => (cmp a b).swap) := by
  constructor
  · intro a b
    rw [h.symm a b]
  · intro a b c h1 h2
    have h1' : cmp b a ≠ .gt := by
      rw [← h.ne_lt_iff]
      cases hab : cmp a b <;> simp [hab, Ordering.swap] at h1 ⊢
    have h2' : cmp c b ≠ .gt := by
      rw [← h.ne_lt_iff]
      cases hbc : cmp b c <;> simp [hbc, Ordering.swap] at h2 ⊢
    have h3 := h.le_trans c b a h2' h1'
    rw [← h.ne_lt_iff] at h3
    cases hac : cmp a c <;> simp [hac, Ordering.swap] at h3 ⊢

theorem LawfulCmp.flip_iff {α : Type} {cmp : α → α → Ordering} (h : LawfulCmp cmp)
    (a b : α) : leOfCmp (fun x y => (cmp x y).swap) a b ↔ leOfCmp cmp b a := by
  unfold leOfCmp
  rw [h.symm b a]

theorem LawfulCmp.comap {α β : Type} {cmp : α → α → Ordering} (h : LawfulCmp cmp)
    (k : β → α) : LawfulCmp (fun x y => cmp (k x) (k y)) :=
  ⟨fun a b => h.symm _ _, fun a b c => h.le_trans _ _ _⟩

theorem lawful_cmpd {α : Type} [LinearOrder α] : LawfulCmp (fun x y : α => cmpd x y) := by
  constructor
  · exact cmpd_symm
  · intro a b c h1 h2
    rw [cmpd_ne_gt_iff] at h1 h2 ⊢
    exact le_trans h1 h2

theorem lawful_decimal_cmp : LawfulCmp Decimal.cmp := by
  constructor
  · exact Decimal.cmp_symm
  · intro a b c h1 h2
    have hSa : a.scale ≤ max a.scale (max b.scale c.scale) := by omega
    have hSb : b.scale ≤ max a.scale (max b.scale c.scale) := by omega
    have hSc : c.scale ≤ max a.scale (max b.scale c.scale) := by omega
    rw [Decimal.cmp_ne_gt_iff a b hSa hSb] at h1
    rw [Decimal.cmp_ne_gt_iff b c hSb hSc] at h2
    rw [Decimal.cmp_ne_gt_iff a c hSa hSc]
    exact le_trans h1 h2

/-- Rust's derived `Ord` on `Option`: `None` sorts before `Some`. -/
def cmpOpt {α : Type} (c : α → α → Ordering) : Option α → Option α → Ordering
  | some x, some y => c x y
  | some _, none => .gt
  | none, some _ => .lt
  | none, none => .eq

theorem lawful_cmpOpt {α : Type} {c : α → α → Ordering} (h : LawfulCmp c) :
    LawfulCmp (cmpOpt c) := by
  constructor
  · intro a b
    cases a <;> cases b <;> simp [cmpOpt, Ordering.swap]
    exact h.symm _ _
  · intro a b c' h1 h2
    cases a <;> cases b <;> cases c' <;> simp_all [cmpOpt]
    exact h.le_trans _ _ _ h1 h2

/-! Data model (`src/models/transaction.rs`, `src/models/category.rs`) -/

/-- Structure `Transaction` of `src/models/transaction.rs`.  `date` is the
`NaiveDateTime` (midnight) encoded as y*10000 + m*100 + d; `amount` is the
exact decimal amount. -/
structure Transaction where
  id : Nat
  date : Nat
  amount : Decimal
  merchant : Text
  description : Text
  category : Option Text
deriving DecidableEq, Inhabited

/-- A categorization rule (`Rule` of `src/models/category.rs`): substring
pattern, owning category name, priority (`u8`, modelled as `Nat`). -/
structure Rule where
  pattern : Text
  category : Text
  priority : Nat
deriving DecidableEq, Inhabited

/-- A named category owning its rules (`Category` of `src/models/category.rs`). -/
structure Category where
  name : Text
  rules : List Rule
deriving DecidableEq

/-- Embedding of `Category::new`: builds the rules from (pattern, priority) pairs, each
back-referencing the owning category's name. -/
def Category.new (name : Text) (patterns : List (Text × Nat)) : Category :=
  ⟨name, patterns.map (fun p => ⟨p.1, name, p.2⟩)⟩

/-- The fixed `CategoryType` enumeration of `src/models/category.rs`. -/
inductive CategoryType where
  | Groceries | Utilities | Transportation | Childcare | Entertainment
  | Government | InternalTransfer | Shopping | Dining | Healthcare
  | Education | Travel | Uncategorized
deriving DecidableEq

/-- Embedding of `CategoryType::as_str`. -/
def CategoryType.as_str : CategoryType → Text
  | .Groceries => "Groceries".toList
  | .Utilities => "Utilities".toList
  | .Transportation => "Transportation".toList
  | .Childcare => "Childcare".toList
  | .Entertainment => "Entertainment".toList
  | .Government => "Government".toList
  | .InternalTransfer => "Internal Transfer".toList
  | .Shopping => "Shopping".toList
  | .Dining => "Dining".toList
  | .Healthcare => "Healthcare".toList
  | .Education => "Education".toList
  | .Travel => "Travel".toList
  | .Uncategorized => "Uncategorized".toList

/-- Embedding of `CategoryType::all`. -/
def CategoryType.all : List CategoryType :=
  [.Groceries, .Utilities, .Transportation, .Childcare, .Entertainment,
   .Government, .InternalTransfer, .Shopping, .Dining, .Healthcare,
   .Education, .Travel, .Uncategorized]

/-- Whether a rule matches the (already lower-cased) merchant and description
texts: its lower-cased pattern is a substring of either. -/
def rule_matches (r : Rule) (merchant_lower description_lower : Text) : Bool :=
  containsSub merchant_lower (toLowercase r.pattern) ||
    containsSub description_lower (toLowercase r.pattern)

/-- The preorder used by `all_rules.sort_by(|a, b| b.priority.cmp(&a.priority))`:
priority descending. -/
def rule_priority_le (a b : Rule) : Prop := cmpd b.priority a.priority ≠ .gt

instance : DecidableRel rule_priority_le :=
  fun a b => inferInstanceAs (Decidable (cmpd b.priority a.priority ≠ .gt))

/-- All rules of all categories, flattened in map-iteration order (the
`HashMap::values` iteration is modelled by the association-list order). -/
def all_rules_of (categories : List (Text × Category)) : List Rule :=
  categories.foldr (fun c acc => c.2.rules ++ acc) []

/-- Embedding of `Category::categorize_transaction`: flatten all rules, stable-sort them by
priority descending, lower-case the two text fields, and return the owning
category name of the first rule whose lower-cased pattern is a substring of
either field; `none` if no rule matches. -/
def Category.categorize_transaction (categories : List (Text × Category))
    (merchant description : Text) : Option Text :=
  let sorted_rules := sortBy rule_priority_le (all_rules_of categories)
  let merchant_lower := toLowercase merchant
  let description_lower := toLowercase description
  (sorted_rules.find? (fun r => rule_matches r merchant_lower description_lower)).map
    Rule.category

/-! View state machine (`src/ui/app.rs`) -/

/-- Enum `View` of `src/ui/app.rs`. -/
inductive View where
  | TransactionList | CategorySummary | TransactionDetail | CategoryDetail
deriving DecidableEq

/-- Enum `SortOrder` of `src/ui/app.rs`. -/
inductive SortOrder where
  | Ascending | Descending
deriving DecidableEq

/-- Enum `SortField` of `src/ui/app.rs`. -/
inductive SortField where
  | Date | Amount | Merchant | Category
deriving DecidableEq

/-- Enum `InputMode` of `src/ui/app.rs`. -/
inductive InputMode where
  | Normal | Filtering | Categorizing
deriving DecidableEq

/-- Embedding of `compare_transactions` of `src/ui/app.rs`: compare one field with the
derived `Ord`, then reverse for descending order. -/
def compare_transactions (a b : Transaction) (field : SortField) (order : SortOrder) :
    Ordering :=
  let ordering := match field with
    | SortField.Date => cmpd a.date b.date
    | SortField.Amount => Decimal.cmp a.amount b.amount
    | SortField.Merchant => cmpd a.merchant b.merchant
    | SortField.Category => cmpOpt cmpd a.category b.category
  match order with
  | SortOrder.Ascending => ordering
  | SortOrder.Descending => ordering.swap

theorem lawful_compare_transactions (f : SortField) (o : SortOrder) :
    LawfulCmp (fun a b => compare_transactions a b f o) := by
  have hbase : LawfulCmp (fun a b => compare_transactions a b f .Ascending) := by
    cases f
    · exact lawful_cmpd.comap Transaction.date
    · exact lawful_decimal_cmp.comap Transaction.amount
    · exact lawful_cmpd.comap Transaction.merchant
    · exact (lawful_cmpOpt lawful_cmpd).comap Transaction.category
  cases o
  · exact hbase
  · exact hbase.swap

/-- The preorder induced by `compare_transactions` used by the stable sort. -/
def transaction_le (f : SortField) (o : SortOrder) : Transaction → Transaction → Prop :=
  fun a b => compare_transactions a b f o ≠ .gt

instance (f : SortField) (o : SortOrder) : DecidableRel (transaction_le f o) :=
  fun a b => inferInstanceAs (Decidable (compare_transactions a b f o ≠ .gt))

/-- Structure `App` of `src/ui/app.rs`.  `list_state` is the `ListState` selection;
`categories` and `category_totals` are the `HashMap`s as association lists. -/
structure App where
  transactions : List Transaction
  filtered_transactions : List Nat
  categories : List (Text × Category)
  current_view : View
  selected_transaction : Option Nat
  category_totals : List (Text × Decimal)
  list_state : Option Nat
  sort_field : SortField
  sort_order : SortOrder
  input_mode : InputMode
  input_text : Text
  filter : Option Text
  can_show_details : Bool
  category_selection : Option Nat
  available_categories : List CategoryType
deriving DecidableEq

namespace App

/-- Embedding of `App::next`: advance the selection, wrapping at
`transactions.len().saturating_sub(1)` (note: the bound is the full
transaction count, not the filtered count). -/
def next (s : App) : App :=
  let i := match s.list_state with
    | some i => if i ≥ s.transactions.length - 1 then 0 else i + 1
    | none => 0
  { s with list_state := some i, selected_transaction := some i }

/-- Embedding of `App::previous`: move the selection back, wrapping to
`transactions.len().saturating_sub(1)`. -/
def previous (s : App) : App :=
  let i := match s.list_state with
    | some i => if i = 0 then s.transactions.length - 1 else i - 1
    | none => 0
  { s with list_state := some i, selected_transaction := some i }

/-- The filter predicate of `App::apply_filter`: the (lower-cased) filter text
occurs in the lower-cased merchant, description, or category name. -/
def matches_filter (t : Transaction) (f : Text) : Bool :=
  containsSub (toLowercase t.merchant) f || containsSub (toLowercase t.description) f ||
    ((t.category.map (fun c => containsSub (toLowercase c) f)).getD false)

/-- Embedding of `App::apply_filter`: store the lower-cased filter, rebuild
`filtered_transactions` as the matching indices in order, and select index 0
only when the result is non-empty. -/
def apply_filter (s : App) (filter : Text) : App :=
  let fl := toLowercase filter
  let ft := (s.transactions.enum.filter (fun p => matches_filter p.2 fl)).map Prod.fst
  let s' := { s with filter := some fl, filtered_transactions := ft }
  if ft.isEmpty then s' else { s' with list_state := some 0 }

/-- Embedding of `App::clear_filter`: drop the filter and the index sequence; select index 0
when the collection is non-empty. -/
def clear_filter (s : App) : App :=
  let s' := { s with filter := none, filtered_transactions := [] }
  if s.transactions.isEmpty then s' else { s' with list_state := some 0 }

/-- The index preorder used when sorting `filtered_transactions`
(`self.transactions[a]` is total in reachable states; out-of-range indices are
modelled by `getD` with the default transaction). -/
def filtered_le (s : App) : Nat → Nat → Prop := fun a b =>
  transaction_le s.sort_field s.sort_order
    (s.transactions.getD a default) (s.transactions.getD b default)

instance (s : App) : DecidableRel s.filtered_le :=
  fun a b => inferInstanceAs
    (Decidable (transaction_le s.sort_field s.sort_order _ _))

/-- Embedding of `App::sort_transactions`: stable-sort `filtered_transactions` when it is
non-empty, otherwise stable-sort the transaction collection itself. -/
def sort_transactions (s : App) : App :=
  if s.filtered_transactions.isEmpty then
    { s with transactions :=
        sortBy (transaction_le s.sort_field s.sort_order) s.transactions }
  else
    let le : Nat → Nat → Prop := fun a b => transaction_le s.sort_field s.sort_order
      (s.transactions.getD a default) (s.transactions.getD b default)
    let inst : DecidableRel le := fun a b => inferInstanceAs
      (Decidable (transaction_le s.sort_field s.sort_order
        (s.transactions.getD a default) (s.transactions.getD b default)))
    { s with filtered_transactions := @sortBy Nat le inst s.filtered_transactions }

/-- Embedding of `App::toggle_sort_order`: flip the order and re-sort. -/
def toggle_sort_order (s : App) : App :=
  sort_transactions
    { s with sort_order := match s.sort_order with
        | SortOrder.Ascending => SortOrder.Descending
        | SortOrder.Descending => SortOrder.Ascending }

/-- Embedding of `App::handle_input`: append a character to the input buffer in an input
mode; no-op in normal mode. -/
def handle_input (s : App) (c : Char) : App :=
  match s.input_mode with
  | .Filtering | .Categorizing => { s with input_text := s.input_text ++ [c] }
  | .Normal => s

/-- Embedding of `App::handle_backspace`: drop the last character of the input buffer in an
input mode; no-op in normal mode. -/
def handle_backspace (s : App) : App :=
  match s.input_mode with
  | .Filtering | .Categorizing => { s with input_text := s.input_text.dropLast }
  | .Normal => s

/-- The `"Uncategorized"` bucket name. -/
def uncategorized : Text := "Uncategorized".toList

/-- One step of `update_category_totals`:
`*totals.entry(category).or_insert(Decimal::ZERO) += amount` on an
association-list map. -/
def add_to_totals (m : List (Text × Decimal)) (k : Text) (v : Decimal) :
    List (Text × Decimal) :=
  match m with
  | [] => [(k, Decimal.ZERO.add v)]
  | (k', v') :: rest =>
    if k' = k then (k', v'.add v) :: rest else (k', v') :: add_to_totals rest k v

/-- The totals map built by `App::update_category_totals`: sum the amounts
grouped by `category.unwrap_or("Uncategorized")`. -/
def compute_category_totals (ts : List Transaction) : List (Text × Decimal) :=
  ts.foldl (fun m t => add_to_totals m (t.category.getD uncategorized) t.amount) []

/-- Embedding of `App::update_category_totals`. -/
def update_category_totals (s : App) : App :=
  { s with category_totals := compute_category_totals s.transactions }

/-- Embedding of `App::categorize_all_transactions`. -/
def categorize_all_transactions (s : App) : App :=
  { s with transactions := s.transactions.map (fun t =>
      { t with category :=
          Category.categorize_transaction s.categories t.merchant t.description }) }

/-- Embedding of `App::submit_input`: in filtering mode apply or clear the filter; in
categorizing mode assign the highlighted category to the selected transaction
and recompute totals; always clear the buffer and return to normal mode. -/
def submit_input (s : App) : App :=
  match s.input_mode with
  | .Filtering =>
    let s' := if s.input_text.isEmpty then s.clear_filter else s.apply_filter s.input_text
    { s' with input_text := [], input_mode := .Normal }
  | .Categorizing =>
    let s' := match s.selected_transaction with
      | some idx =>
        if idx < s.transactions.length then
          match s.category_selection with
          | some cat_idx =>
            match s.available_categories.get? cat_idx with
            | some category =>
              let t' := { s.transactions.getD idx default with
                category := some category.as_str }
              update_category_totals { s with transactions := s.transactions.set idx t' }
            | none => s
          | none => s
        else s
      | none => s
    { s' with category_selection := none, input_text := [], input_mode := .Normal }
  | .Normal => { s with input_text := [], input_mode := .Normal }

end App

/-! Transaction importer (`src/utils/csv.rs`)

The csv reader itself is abstracted: the importer is modelled as a function on
the already-split records (lists of fields).  `chrono`'s
`parse_from_str("{date}000000", "%Y%m%d%H%M%S")` is modelled as strict 8-digit
`YYYYMMDD` validation; `rust_decimal`'s `from_str` as a sign + digits +
optional fraction parser.  A row-parse failure is propagated by `?` in the
source, i.e. it aborts the whole import; indexing `record[8]` on a record with
7 or 8 fields panics in the source and is modelled as the `missingField`
error (both abort the import). -/

/-- Value of a digit string (most significant first). -/
def digits_to_nat (s : Text) : Nat := s.foldl (fun a c => 10 * a + (c.toNat - 48)) 0

/-- Days in a month of the proleptic Gregorian calendar. -/
def days_in_month (y m : Nat) : Nat :=
  if m = 2 then (if y % 4 = 0 ∧ (y % 100 ≠ 0 ∨ y % 400 = 0) then 29 else 28)
  else if m = 4 ∨ m = 6 ∨ m = 9 ∨ m = 11 then 30 else 31

/-- Model of `parse_date`: an 8-digit `YYYYMMDD` string denoting a valid
calendar date, returned as y*10000 + m*100 + d (midnight). -/
def parse_date (s : Text) : Option Nat :=
  if s.length = 8 ∧ s.all (·.isDigit) then
    let y := digits_to_nat (s.take 4)
    let m := digits_to_nat ((s.drop 4).take 2)
    let d := digits_to_nat (s.drop 6)
    if 1 ≤ m ∧ m ≤ 12 ∧ 1 ≤ d ∧ d ≤ days_in_month y m then
      some (y * 10000 + m * 100 + d)
    else none
  else none

/-- Model of `Decimal::from_str` on an unsigned input: digits with at most one
decimal point; mantissa is the concatenated digits, scale the fraction
length. -/
def parse_unsigned_decimal (s : Text) : Option Decimal :=
  let intPart := s.takeWhile (· ≠ '.')
  let rest := s.dropWhile (· ≠ '.')
  match rest with
  | [] =>
    if intPart ≠ [] ∧ intPart.all (·.isDigit) then
      some ⟨(digits_to_nat intPart : Int), 0⟩
    else none
  | _ :: frac =>
    if (intPart ++ frac) ≠ [] ∧ intPart.all (·.isDigit) ∧ frac.all (·.isDigit) then
      some ⟨(digits_to_nat (intPart ++ frac) : Int), frac.length⟩
    else none

/-- Model of `Decimal::from_str`: optional sign, then unsigned decimal. -/
def parse_decimal (s : Text) : Option Decimal :=
  match s with
  | '-' :: rest => (parse_unsigned_decimal rest).map Decimal.neg
  | '+' :: rest => parse_unsigned_decimal rest
  | _ => parse_unsigned_decimal s

/-- Embedding of `parse_amount`: replace the comma decimal separator by a dot,
parse, and negate when the debit/credit marker is `"Debit"`. -/
def parse_amount (amount debit_credit : Text) : Option Decimal :=
  let a := amount.map (fun c => if c = ',' then '.' else c)
  (parse_decimal a).map (fun d => if debit_credit = "Debit".toList then d.neg else d)

/-- Import failure: a date/amount parse failure propagated by `?`, or the
out-of-bounds `record[8]` panic on a 7- or 8-field record. -/
inductive ImportError where
  | rowParseFailure
  | missingField
deriving DecidableEq

/-- The record loop of `read_transactions_from_csv`: skip records with fewer
than 7 fields, abort on a date/amount parse failure, and assign 1-based ids in
push order. -/
def read_transactions_loop (id_counter : Nat) :
    List (List Text) → Except ImportError (List Transaction)
  | [] => .ok []
  | r :: rs =>
    if r.length < 7 then read_transactions_loop id_counter rs
    else
      match parse_date (trim_quotes (r.getD 0 [])) with
      | none => .error .rowParseFailure
      | some date =>
        match r.get? 8 with
        | none => .error .missingField
        | some f8 =>
          match parse_amount (trim_quotes (r.getD 6 [])) (trim_quotes (r.getD 5 [])) with
          | none => .error .rowParseFailure
          | some amount =>
            (read_transactions_loop (id_counter + 1) rs).map
              (fun ts =>
                ⟨id_counter, date, amount, trim_quotes (r.getD 1 []),
                  trim_quotes f8, none⟩ :: ts)

/-- Embedding of `read_transactions_from_csv` over the parsed records of the
semicolon-delimited file (header row already consumed by the reader). -/
def read_transactions_from_csv (records : List (List Text)) :
    Except ImportError (List Transaction) :=
  read_transactions_loop 1 records

/-! Concrete fixtures used by the claim theorems. -/

/-- A zero amount. -/
def amt0 : Decimal := ⟨0, 0⟩

/-- Fixture transaction with merchant "alpha". -/
def tAlpha : Transaction := ⟨1, 20240101, amt0, "alpha".toList, [], none⟩

/-- Fixture transaction with merchant "beta". -/
def tBeta : Transaction := ⟨2, 20240102, amt0, "beta".toList, [], none⟩

/-- Fixture transaction with merchant "gamma". -/
def tGamma : Transaction := ⟨3, 20240103, amt0, "gamma".toList, [], none⟩

/-- A base view state over the given transactions: no filter, no selection,
normal input mode, default sort (date descending), as after `App::new` modulo
the initial selection. -/
def baseApp (ts : List Transaction) : App :=
  { transactions := ts, filtered_transactions := [], categories := [],
    current_view := .TransactionList, selected_transaction := none,
    category_totals := [], list_state := none, sort_field := .Date,
    sort_order := .Descending, input_mode := .Normal, input_text := [],
    filter := none, can_show_details := false, category_selection := none,
    available_categories := CategoryType.all }

/-- State with three transactions, an active filter "beta" whose visible
sequence is the single index 1, and the cursor on 0. -/
def sFiltered : App :=
  { baseApp [tAlpha, tBeta, tGamma] with
      filter := some ("beta".toList)
      filtered_transactions := [1]
      list_state := some 0
      selected_transaction := some 0 }

/-- State with two transactions and the cursor on the first. -/
def sTwo : App :=
  { baseApp [tAlpha, tBeta] with
      list_state := some 0
      selected_transaction := some 0 }

/-- C8: on an empty transaction collection (hence an empty visible sequence)
`select_next`/`select_previous` are claimed to be no-ops that leave the state
unchanged with no selection; the code instead fabricates the selection
`Some 0` into the empty list (and likewise mutates `selected_transaction`),
so the state changes.  The no-panic part holds (`saturating_sub`), but the
no-op/no-selection part is violated; this theorem evaluates the code at the
failing input. -/
theorem c8_next_on_empty_fabricates_selection :
    (App.next (baseApp [])).list_state = some 0 ∧
    (App.next (baseApp [])).selected_transaction = some 0 ∧
    App.next (baseApp []) ≠ baseApp [] ∧
    (App.previous (baseApp [])).list_state = some 0 ∧
    App.previous (baseApp []) ≠ baseApp [] := by
  decide

/-- C5: with the filter "beta" active the visible sequence is `[1]` (N = 1),
but one `select_next` step moves the cursor from 0 to 1 instead of wrapping
within the visible sequence, so N steps do not return to the start; the
wrap-around period is the full transaction count (3), not the visible
count. -/
theorem c5_next_wraps_over_full_collection :
    sFiltered.filtered_transactions.length = 1 ∧
    (App.next sFiltered).list_state = some 1 ∧
    (App.next sFiltered).list_state ≠ sFiltered.list_state ∧
    (App.next (App.next (App.next sFiltered))).list_state = some 0 := by
  decide

/-- C1: the cursor invariant is violated by the code: after
`apply_filter("zzz")` matches zero transactions the cursor stays `Some 0`
although the visible sequence is empty (not reset, not cleared), and with a
filter active one `select_next` moves the cursor to 1 ≥ 1 = the visible
length, addressing no visible element. -/
theorem c1_cursor_can_dangle :
    ((sTwo.apply_filter ("zzz".toList)).filtered_transactions = []) ∧
    ((sTwo.apply_filter ("zzz".toList)).filter = some ("zzz".toList)) ∧
    ((sTwo.apply_filter ("zzz".toList)).list_state = some 0) ∧
    (sFiltered.filtered_transactions.length = 1 ∧
      (App.next sFiltered).list_state = some 1) := by
  decide

/-- C6 counterexample: `apply_filter("")` is not equivalent to `clear_filter`:
it records `Some ""` as the active filter (and materializes the full index
sequence) where `clear_filter` stores `None` (and an empty sequence). -/
theorem c6_apply_empty_ne_clear :
    (baseApp [tAlpha]).apply_filter [] ≠ (baseApp [tAlpha]).clear_filter := by
  decide

/-! Helper lemmas about `apply_filter`. -/

theorem containsSub_nil (h : Text) : containsSub h [] = true := by
  cases h <;> rfl

theorem matches_filter_nil (t : Transaction) : App.matches_filter t [] = true := by
  simp [App.matches_filter, containsSub_nil]

theorem apply_filter_filtered (s : App) (f : Text) :
    (s.apply_filter f).filtered_transactions =
      (s.transactions.enum.filter
        (fun p => App.matches_filter p.2 (toLowercase f))).map Prod.fst := by
  simp only [App.apply_filter]
  split <;> rfl

theorem apply_filter_filter (s : App) (f : Text) :
    (s.apply_filter f).filter = some (toLowercase f) := by
  simp only [App.apply_filter]
  split <;> rfl

theorem apply_filter_list_state (s : App) (f : Text)
    (h : (s.apply_filter f).filtered_transactions ≠ []) :
    (s.apply_filter f).list_state = some 0 := by
  rw [apply_filter_filtered] at h
  simp only [App.apply_filter]
  split
  · rename_i hc
    exact absurd (List.isEmpty_iff.mp hc) h
  · rfl

/-- C6 (amended): `apply_filter("")` matches every transaction, so the visible
sequence becomes all indices in original order and the cursor is reset to the
first element when the collection is non-empty — but the state is not the
`clear_filter` state: the filter field becomes `Some ""` (an active filter)
and the index sequence is materialized.  The claimed equivalence does hold one
level up: `submit_input` with an empty filter buffer performs `clear_filter`
(plus the usual buffer/mode epilogue). -/
theorem c6_amended (s : App) :
    ((s.apply_filter []).filter = some []) ∧
    ((s.apply_filter []).filtered_transactions = List.range s.transactions.length) ∧
    (s.transactions ≠ [] → (s.apply_filter []).list_state = some 0) ∧
    (s.input_mode = .Filtering → s.input_text = [] →
      s.submit_input = { s.clear_filter with input_text := [], input_mode := .Normal }) := by
  have hfl : (s.apply_filter []).filtered_transactions =
      List.range s.transactions.length := by
    rw [apply_filter_filtered]
    rw [List.filter_eq_self.mpr fun p _ => matches_filter_nil p.2, List.enum_map_fst]
  refine ⟨apply_filter_filter s [], hfl, ?_, ?_⟩
  · intro h
    apply apply_filter_list_state
    rw [hfl]
    simp only [ne_eq, List.range_eq_nil, List.length_eq_zero]
    exact h
  · intro h1 h2
    simp [App.submit_input, h1, h2]

/-- State used as the C6 witness input: one transaction, filtering mode,
empty buffer. -/
def sC6 : App := { baseApp [tAlpha] with input_mode := .Filtering }

/-- Witness for the amended C6 at a concrete state. -/
theorem c6_amended_witness :
    ((baseApp [tAlpha]).transactions ≠ []) ∧
    ((baseApp [tAlpha]).apply_filter []).list_state = some 0 ∧
    (sC6.input_mode = .Filtering ∧ sC6.input_text = [] ∧
      sC6.submit_input =
        { sC6.clear_filter with input_text := [], input_mode := .Normal }) :=
  ⟨by decide, (c6_amended (baseApp [tAlpha])).2.2.1 (by decide),
    by decide, by decide, (c6_amended sC6).2.2.2 (by decide) (by decide)⟩

/-- C4: after `apply_filter(f)` with non-empty `f`, the visible sequence
contains exactly the indices of transactions whose merchant, description, or
category contains the (lower-cased) filter case-insensitively — every visible
index matches and every matching index is visible — and the indices are
strictly increasing, i.e. the original relative order is preserved. -/
theorem c4_filter_partition (s : App) (f : Text) (hf : f ≠ []) :
    ((s.apply_filter f).filter = some (toLowercase f)) ∧
    (∀ i, i ∈ (s.apply_filter f).filtered_transactions ↔
      ∃ t, s.transactions.get? i = some t ∧
        App.matches_filter t (toLowercase f) = true) ∧
    ((s.apply_filter f).filtered_transactions.Pairwise (· < ·)) := by
  refine ⟨apply_filter_filter s f, ?_, ?_⟩
  · intro i
    rw [apply_filter_filtered]
    constructor
    · intro hm
      obtain ⟨p, hp, hpi⟩ := List.mem_map.mp hm
      obtain ⟨henum, hpred⟩ := List.mem_filter.mp hp
      refine ⟨p.2, ?_, hpred⟩
      rw [List.get?_eq_getElem?, ← hpi]
      exact List.mem_enum_iff_getElem?.mp (by rwa [← Prod.mk.eta (p := p)] at henum)
    · rintro ⟨t, hget, hmatch⟩
      apply List.mem_map.mpr
      refine ⟨(i, t), List.mem_filter.mpr ⟨List.mem_enum_iff_getElem?.mpr ?_, hmatch⟩, rfl⟩
      rw [← List.get?_eq_getElem?]
      exact hget
  · rw [apply_filter_filtered]
    have hsub : ((s.transactions.enum.filter
        (fun p => App.matches_filter p.2 (toLowercase f))).map Prod.fst).Sublist
          (s.transactions.enum.map Prod.fst) :=
      (List.filter_sublist _).map _
    rw [List.enum_map_fst] at hsub
    exact (List.pairwise_lt_range _).sublist hsub

/-- Witness for C4 at a concrete state and filter. -/
theorem c4_filter_partition_witness :
    ("b".toList ≠ []) ∧
    (((baseApp [tAlpha, tBeta]).apply_filter ("b".toList)).filter =
        some (toLowercase ("b".toList)) ∧
      (∀ i, i ∈ ((baseApp [tAlpha, tBeta]).apply_filter ("b".toList)).filtered_transactions ↔
        ∃ t, (baseApp [tAlpha, tBeta]).transactions.get? i = some t ∧
          App.matches_filter t (toLowercase ("b".toList)) = true) ∧
      (((baseApp [tAlpha, tBeta]).apply_filter ("b".toList)).filtered_transactions.Pairwise
        (· < ·))) :=
  ⟨by decide, c4_filter_partition (baseApp [tAlpha, tBeta]) ("b".toList) (by decide)⟩

/-! Category totals (C2). -/

/-- Lookup in the totals association list (0 for an absent key). -/
def lookup_total : List (Text × Decimal) → Text → Decimal
  | [], _ => 0
  | (k', v) :: rest, k => if k' = k then v else lookup_total rest k

theorem sum_add_to_totals (m : List (Text × Decimal)) (k : Text) (v : Decimal) :
    ((App.add_to_totals m k v).map Prod.snd).sum = (m.map Prod.snd).sum + v := by
  induction m with
  | nil => simp [App.add_to_totals, Decimal.zero_add]
  | cons hd rest ih =>
    obtain ⟨k', v'⟩ := hd
    simp only [App.add_to_totals]
    split
    · simp only [List.map_cons, List.sum_cons, ← Decimal.add_def]
      rw [add_assoc, add_assoc, add_comm v]
    · simp only [List.map_cons, List.sum_cons, ih]
      rw [add_assoc]

theorem sum_foldl_totals (ts : List Transaction) :
    ∀ m : List (Text × Decimal),
      ((ts.foldl (fun m t =>
          App.add_to_totals m (t.category.getD App.uncategorized) t.amount) m).map
        Prod.snd).sum = (m.map Prod.snd).sum + (ts.map Transaction.amount).sum := by
  induction ts with
  | nil =>
    intro m
    simp
  | cons t ts ih =>
    intro m
    simp only [List.foldl_cons, List.map_cons, List.sum_cons]
    rw [ih, sum_add_to_totals, add_assoc]

theorem lookup_add_to_totals (m : List (Text × Decimal)) (k : Text) (v : Decimal)
    (q : Text) :
    lookup_total (App.add_to_totals m k v) q =
      if k = q then lookup_total m q + v else lookup_total m q := by
  induction m with
  | nil =>
    by_cases hkq : k = q
    · simp [App.add_to_totals, lookup_total, hkq, Decimal.zero_add]
    · simp [App.add_to_totals, lookup_total, hkq]
  | cons hd rest ih =>
    obtain ⟨k', v'⟩ := hd
    by_cases hk : k' = k
    · subst hk
      by_cases hq : k' = q
      · simp [App.add_to_totals, lookup_total, hq, Decimal.add_def]
      · simp [App.add_to_totals, lookup_total, hq]
    · by_cases hq : k' = q
      · subst hq
        have hkq : ¬ k = k' := fun h => hk h.symm
        simp [App.add_to_totals, lookup_total, hk, hkq]
      · simp [App.add_to_totals, lookup_total, hk, hq, ih]

theorem lookup_foldl_totals (ts : List Transaction) :
    ∀ m : List (Text × Decimal), ∀ q : Text,
      lookup_total (ts.foldl (fun m t =>
          App.add_to_totals m (t.category.getD App.uncategorized) t.amount) m) q =
        lookup_total m q +
          ((ts.filter (fun t => decide (t.category.getD App.uncategorized = q))).map
            Transaction.amount).sum := by
  induction ts with
  | nil =>
    intro m q
    simp
  | cons t ts ih =>
    intro m q
    simp only [List.foldl_cons]
    rw [ih, lookup_add_to_totals]
    by_cases hq : t.category.getD App.uncategorized = q
    · rw [if_pos hq, List.filter_cons, if_pos (by simpa using hq)]
      simp only [List.map_cons, List.sum_cons]
      rw [add_assoc]
    · rw [if_neg hq, List.filter_cons, if_neg (by simpa using hq)]

/-- C2: after `update_category_totals` the category totals are an exact
partition of the transaction amounts: the sum of all values in the totals map
equals the exact decimal sum of all amounts, and each key's value is the exact
sum of the amounts of the transactions whose effective category (the category
name, or "Uncategorized" when absent) is that key. -/
theorem c2_totals_exact_partition (s : App) :
    (((s.update_category_totals).category_totals.map Prod.snd).sum =
      (s.transactions.map Transaction.amount).sum) ∧
    (∀ q, lookup_total (s.update_category_totals).category_totals q =
      ((s.transactions.filter
        (fun t => decide (t.category.getD App.uncategorized = q))).map
          Transaction.amount).sum) := by
  constructor
  · simp only [App.update_category_totals, App.compute_category_totals]
    rw [sum_foldl_totals]
    simp
  · intro q
    simp only [App.update_category_totals, App.compute_category_totals]
    rw [lookup_foldl_totals]
    simp [lookup_total]

/-! Categorization engine (C3). -/

theorem rule_priority_le_total : ∀ a b : Rule, rule_priority_le a b ∨ rule_priority_le b a := by
  intro a b
  unfold rule_priority_le
  rw [cmpd_ne_gt_iff, cmpd_ne_gt_iff]
  omega

theorem rule_priority_le_trans : Transitive rule_priority_le := by
  intro a b c h1 h2
  unfold rule_priority_le at h1 h2 ⊢
  rw [cmpd_ne_gt_iff] at h1 h2 ⊢
  omega

/-- The two-category rule set of the C3 scenario: "Albert Heijn" -> Groceries
(priority 1) and "Uber" -> Transportation (priority 1). -/
def exampleCategories : List (Text × Category) :=
  [("Groceries".toList, Category.new ("Groceries".toList) [("Albert Heijn".toList, 1)]),
   ("Transportation".toList,
     Category.new ("Transportation".toList) [("Uber".toList, 1)])]

/-- C3: `categorize_transaction` scans all rules of all categories in a
priority-descending stable order and returns the owning category name of the
first rule whose lower-cased pattern is a substring of the lower-cased
merchant or description; `none` exactly when no rule matches.  The scan order
is a permutation of all rules sorted by priority descending (ties keep
map-iteration order, modelled as the association-list order).  In particular,
with rules {"Albert Heijn" -> Groceries, "Uber" -> Transportation} merchant
"ALBERT HEIJN 1234" yields Groceries, and merchant "Random Shop" with empty
description yields no category. -/
theorem c3_categorize_first_priority_match :
    (∀ (cats : List (Text × Category)) (m d : Text),
      ((sortBy rule_priority_le (all_rules_of cats)).Perm (all_rules_of cats) ∧
        (sortBy rule_priority_le (all_rules_of cats)).Pairwise
          (fun r r' => r'.priority ≤ r.priority)) ∧
      (Category.categorize_transaction cats m d = none ↔
        ∀ r ∈ all_rules_of cats, rule_matches r (toLowercase m) (toLowercase d) = false) ∧
      (∀ c, Category.categorize_transaction cats m d = some c ↔
        ∃ r, rule_matches r (toLowercase m) (toLowercase d) = true ∧ c = r.category ∧
          ∃ l₁ l₂, sortBy rule_priority_le (all_rules_of cats) = l₁ ++ r :: l₂ ∧
            ∀ r' ∈ l₁, rule_matches r' (toLowercase m) (toLowercase d) = false)) ∧
    (Category.categorize_transaction exampleCategories ("ALBERT HEIJN 1234".toList) [] =
      some ("Groceries".toList)) ∧
    (Category.categorize_transaction exampleCategories ("Random Shop".toList) [] =
      none) := by
  refine ⟨?_, by decide, by decide⟩
  intro cats m d
  refine ⟨⟨perm_sortBy _ _, ?_⟩, ?_, ?_⟩
  · exact (pairwise_sortBy rule_priority_le rule_priority_le_total
      rule_priority_le_trans _).imp fun h => (cmpd_ne_gt_iff _ _).mp h
  · simp only [Category.categorize_transaction, Option.map_eq_none', List.find?_eq_none]
    constructor
    · intro h r hr
      have := h r ((perm_sortBy rule_priority_le (all_rules_of cats)).mem_iff.mpr hr)
      simpa using this
    · intro h r hr
      have := h r ((perm_sortBy rule_priority_le (all_rules_of cats)).mem_iff.mp hr)
      simp [this]
  · intro c
    simp only [Category.categorize_transaction, Option.map_eq_some', List.find?_eq_some]
    constructor
    · rintro ⟨r, ⟨hp, l₁, l₂, hsplit, hprev⟩, hcat⟩
      refine ⟨r, hp, hcat.symm, l₁, l₂, hsplit, ?_⟩
      intro r' hr'
      have := hprev r' hr'
      simpa using this
    · rintro ⟨r, hp, hcat, l₁, l₂, hsplit, hprev⟩
      refine ⟨r, ⟨hp, l₁, l₂, hsplit, ?_⟩, hcat.symm⟩
      intro r' hr'
      simp [hprev r' hr']

/-! Importer behaviour (C9). -/

/-- A record with 9 fields whose date field is malformed. -/
def badRecord : List Text :=
  ["XX".toList, "m".toList, "a".toList, "b".toList, "c".toList,
   "Debit".toList, "1,00".toList, "x".toList, "note".toList]

/-- A well-formed record: 12.50 debit on 2024-01-01. -/
def goodRecord1 : List Text :=
  ["20240101".toList, "Shop A".toList, [], [], [],
   "Debit".toList, "12,50".toList, [], "note a".toList]

/-- A record with fewer than 7 fields (skipped by the importer). -/
def shortRecord : List Text := ["x".toList]

/-- A well-formed record: 7 credit on 2024-02-02. -/
def goodRecord2 : List Text :=
  ["20240202".toList, "Shop B".toList, [], [], [],
   "Credit".toList, "7".toList, [], "note b".toList]

/-- C9 counterexample: a single row whose date fails to parse makes the
whole import fail (the claim says such a row is skipped with Ok returned).
The importer returns an error for a file whose only record is well-shaped
(9 fields) but has the malformed date "XX". -/
theorem c9_malformed_row_aborts_import :
    read_transactions_from_csv [badRecord] = .error .rowParseFailure := rfl

/-- C9 (amended): the importer's actual policy is split: a record with fewer
than 7 fields is skipped silently and the import continues, but a record whose
date (or amount) fails to parse aborts the whole import with an error rather
than being skipped; when all sufficiently long records parse, the import
returns Ok with the parsed transactions and 1-based ids assigned in push
order. -/
theorem c9_amended_skip_short_fatal_parse :
    (∀ (i : Nat) (r : List Text) (rs : List (List Text)), r.length < 7 →
      read_transactions_loop i (r :: rs) = read_transactions_loop i rs) ∧
    (∀ (i : Nat) (r : List Text) (rs : List (List Text)), 7 ≤ r.length →
      parse_date (trim_quotes (r.getD 0 [])) = none →
      read_transactions_loop i (r :: rs) = .error .rowParseFailure) ∧
    (read_transactions_from_csv [goodRecord1, shortRecord, goodRecord2] =
      .ok [⟨1, 20240101, ⟨-1250, 2⟩, "Shop A".toList, "note a".toList, none⟩,
           ⟨2, 20240202, ⟨7, 0⟩, "Shop B".toList, "note b".toList, none⟩]) := by
  refine ⟨?_, ?_, rfl⟩
  · intro i r rs h
    simp [read_transactions_loop, h]
  · intro i r rs h hd
    rw [List.getD_eq_getElem?_getD] at hd
    simp [read_transactions_loop, Nat.not_lt.mpr h, hd]

/-- Witness for the amended C9 at concrete records. -/
theorem c9_amended_witness :
    (shortRecord.length < 7 ∧
      read_transactions_loop 3 [shortRecord] = read_transactions_loop 3 []) ∧
    (7 ≤ badRecord.length ∧ parse_date (trim_quotes (badRecord.getD 0 [])) = none ∧
      read_transactions_loop 1 [badRecord] = .error .rowParseFailure) :=
  ⟨⟨by decide, c9_amended_skip_short_fatal_parse.1 3 shortRecord [] (by decide)⟩,
    ⟨by decide, rfl,
      c9_amended_skip_short_fatal_parse.2.1 1 badRecord [] (by decide) rfl⟩⟩

/-! Sorting claims (C7, C10). -/

theorem sortBy_eq_nil_iff {α : Type} (le : α → α → Prop) [DecidableRel le]
    (l : List α) : sortBy le l = [] ↔ l = [] := by
  constructor
  · intro h
    have hlen := (perm_sortBy le l).length_eq
    rw [h] at hlen
    exact List.length_eq_zero.mp hlen.symm
  · intro h
    rw [h]
    rfl

theorem transaction_le_total (f : SortField) (o : SortOrder) :
    ∀ a b, transaction_le f o a b ∨ transaction_le f o b a :=
  fun a b => (lawful_compare_transactions f o).total a b

theorem transaction_le_trans (f : SortField) (o : SortOrder) :
    Transitive (transaction_le f o) :=
  fun a b c h1 h2 => (lawful_compare_transactions f o).le_trans a b c h1 h2

theorem transaction_le_flip_desc (f : SortField) (a b : Transaction) :
    transaction_le f .Descending a b ↔ transaction_le f .Ascending b a :=
  (lawful_compare_transactions f .Ascending).flip_iff a b

theorem transaction_le_flip_asc (f : SortField) (a b : Transaction) :
    transaction_le f .Ascending a b ↔ transaction_le f .Descending b a :=
  ((lawful_compare_transactions f .Ascending).flip_iff b a).symm

/-- State used as the C7 counterexample: three transactions out of date order
(dates 2, 1, 3), ascending date sort, no filter. -/
def sUnsorted : App := { baseApp [tBeta, tAlpha, tGamma] with sort_order := .Ascending }

/-- C7 counterexample: `toggle_sort_order` applied twice does not restore an
arbitrary initial order.  Starting from the unsorted order (dates 2, 1, 3)
with ascending date sort, the first toggle sorts descending (3, 2, 1) and the
second sorts ascending (1, 2, 3), which differs from the initial sequence. -/
theorem c7_double_toggle_not_involution :
    sUnsorted.toggle_sort_order.toggle_sort_order ≠ sUnsorted ∧
    sUnsorted.toggle_sort_order.toggle_sort_order.transactions =
      [tAlpha, tBeta, tGamma] ∧
    sUnsorted.transactions = [tBeta, tAlpha, tGamma] := by
  decide

/-- C7 (amended): `toggle_sort_order` applied twice restores the sequence
provided it was already sorted by the current sort field and order (the steady
state after any re-sort); ties are preserved by stability.  For an arbitrary
unsorted initial order the double toggle instead produces the stable sort (see
the counterexample). -/
theorem c7_amended_double_toggle_restores_sorted (s : App)
    (h1 : s.filtered_transactions = [] →
      s.transactions.Pairwise (transaction_le s.sort_field s.sort_order))
    (h2 : s.filtered_transactions ≠ [] →
      s.filtered_transactions.Pairwise s.filtered_le) :
    s.toggle_sort_order.toggle_sort_order = s := by
  obtain ⟨t, ft, cats, cv, sel, tot, ls, sf, so, im, it, fl, csd, cs, ac⟩ := s
  by_cases hft : ft = []
  · subst hft
    have hp := h1 rfl
    dsimp only at hp
    cases so
    · have key := sortBy_flip_sortBy (transaction_le sf .Ascending)
        (transaction_le sf .Descending) (transaction_le_total sf .Ascending)
        (transaction_le_trans sf .Ascending) (transaction_le_flip_desc sf) hp
      simp only [App.toggle_sort_order, App.sort_transactions, List.isEmpty_nil,
        if_true, key]
    · have key := sortBy_flip_sortBy (transaction_le sf .Descending)
        (transaction_le sf .Ascending) (transaction_le_total sf .Descending)
        (transaction_le_trans sf .Descending) (transaction_le_flip_asc sf) hp
      simp only [App.toggle_sort_order, App.sort_transactions, List.isEmpty_nil,
        if_true, key]
  · have hp := h2 hft
    dsimp only [App.filtered_le] at hp
    have hft2 : ∀ (le : Nat → Nat → Prop) (inst : DecidableRel le),
        (@sortBy Nat le inst ft).isEmpty = true → False := by
      intro le inst hemp
      exact hft ((sortBy_eq_nil_iff le ft).mp (List.isEmpty_iff.mp hemp))
    cases so
    · have key := sortBy_flip_sortBy
        (fun i j => transaction_le sf .Ascending (t.getD i default) (t.getD j default))
        (fun i j => transaction_le sf .Descending (t.getD i default) (t.getD j default))
        (fun i j => transaction_le_total sf .Ascending _ _)
        (fun i j k hij hjk => transaction_le_trans sf .Ascending hij hjk)
        (fun i j => transaction_le_flip_desc sf _ _) hp
      simp only [App.toggle_sort_order, App.sort_transactions, App.filtered_le,
        if_neg (fun hc => hft (List.isEmpty_iff.mp hc)),
        if_neg (fun hc => hft2 _ _ hc), key]
    · have key := sortBy_flip_sortBy
        (fun i j => transaction_le sf .Descending (t.getD i default) (t.getD j default))
        (fun i j => transaction_le sf .Ascending (t.getD i default) (t.getD j default))
        (fun i j => transaction_le_total sf .Descending _ _)
        (fun i j k hij hjk => transaction_le_trans sf .Descending hij hjk)
        (fun i j => transaction_le_flip_asc sf _ _) hp
      simp only [App.toggle_sort_order, App.sort_transactions, App.filtered_le,
        if_neg (fun hc => hft (List.isEmpty_iff.mp hc)),
        if_neg (fun hc => hft2 _ _ hc), key]

/-- State used as the C7 witness: three transactions already sorted by the
current sort (date descending), no filter. -/
def sSorted : App := baseApp [tGamma, tBeta, tAlpha]

/-- Witness for the amended C7 at a concrete sorted state. -/
theorem c7_amended_witness :
    (sSorted.filtered_transactions = [] →
      sSorted.transactions.Pairwise
        (transaction_le sSorted.sort_field sSorted.sort_order)) ∧
    (sSorted.filtered_transactions ≠ [] →
      sSorted.filtered_transactions.Pairwise sSorted.filtered_le) ∧
    sSorted.toggle_sort_order.toggle_sort_order = sSorted :=
  ⟨fun _ => by decide, fun h => absurd rfl h,
    c7_amended_double_toggle_restores_sorted sSorted (fun _ => by decide)
      (fun h => absurd rfl h)⟩

/-- C10: when the filtered index sequence is non-empty, `sort_transactions`
permutes only the filtered index sequence: the transaction collection (hence
every transaction's fields), the filter, the cursor, and all other state
fields are unchanged, and the new filtered sequence is a permutation of the
old one (same indices as a set); likewise `toggle_sort_order` changes only
`sort_order` besides that permutation. -/
theorem c10_sort_only_permutes_filtered (s : App) (h : s.filtered_transactions ≠ []) :
    ((s.sort_transactions).transactions = s.transactions ∧
      (s.sort_transactions).filtered_transactions.Perm s.filtered_transactions ∧
      (∀ i, i ∈ (s.sort_transactions).filtered_transactions ↔
        i ∈ s.filtered_transactions) ∧
      (s.sort_transactions).filter = s.filter ∧
      (s.sort_transactions).list_state = s.list_state ∧
      (s.sort_transactions).selected_transaction = s.selected_transaction ∧
      (s.sort_transactions).sort_field = s.sort_field ∧
      (s.sort_transactions).sort_order = s.sort_order ∧
      (s.sort_transactions).input_mode = s.input_mode ∧
      (s.sort_transactions).input_text = s.input_text ∧
      (s.sort_transactions).category_totals = s.category_totals ∧
      (s.sort_transactions).categories = s.categories ∧
      (s.sort_transactions).current_view = s.current_view ∧
      (s.sort_transactions).can_show_details = s.can_show_details ∧
      (s.sort_transactions).category_selection = s.category_selection ∧
      (s.sort_transactions).available_categories = s.available_categories) ∧
    ((s.toggle_sort_order).transactions = s.transactions ∧
      (s.toggle_sort_order).filtered_transactions.Perm s.filtered_transactions ∧
      (∀ i, i ∈ (s.toggle_sort_order).filtered_transactions ↔
        i ∈ s.filtered_transactions) ∧
      (s.toggle_sort_order).filter = s.filter) := by
  have hcc : ¬ (s.filtered_transactions.isEmpty = true) := by
    rw [List.isEmpty_iff]
    exact h
  constructor
  · unfold App.sort_transactions
    rw [if_neg hcc]
    exact ⟨rfl, perm_sortBy _ _, fun i => (perm_sortBy _ _).mem_iff, rfl, rfl, rfl,
      rfl, rfl, rfl, rfl, rfl, rfl, rfl, rfl, rfl, rfl⟩
  · unfold App.toggle_sort_order App.sort_transactions
    rw [if_neg hcc]
    exact ⟨rfl, perm_sortBy _ _, fun i => (perm_sortBy _ _).mem_iff, rfl⟩

/-- Witness for C10 at a concrete filtered state. -/
theorem c10_witness :
    sFiltered.filtered_transactions ≠ [] ∧
    (sFiltered.sort_transactions).transactions = sFiltered.transactions ∧
    (sFiltered.sort_transactions).filtered_transactions.Perm
      sFiltered.filtered_transactions ∧
    (sFiltered.toggle_sort_order).filter = sFiltered.filter :=
  ⟨by decide,
    (c10_sort_only_permutes_filtered sFiltered (by decide)).1.1,
    (c10_sort_only_permutes_filtered sFiltered (by decide)).1.2.1,
    (c10_sort_only_permutes_filtered sFiltered (by decide)).2.2.2.2⟩

end FinanceAnalyzer
